import Mathlib

/-!
A verification development for a per-key sliding-window rate limiter
(`SlidingWindowRateLimiter` in `task-01.py`).

Timestamps and durations are modelled as integers (`Time := ℤ`, exact
arithmetic: the source only subtracts, adds and compares these values, and no
property considered here depends on floating-point rounding).  The Python
clock readings (`time.time()`) become explicit parameters, so every operation
that reads the clock takes the reading(s) as argument(s).  The dictionary
`self.user_messages : Dict[str, deque]` is modelled as a function
`Key → Option (List Time)` where `none` means the key is absent; a deque is a
list with its front at the head, so `popleft` is dropping the head and
`append` is appending at the end.
-/

namespace RateLimiter

abbrev Key := String

abbrev Time := ℤ

/-- The state of a `SlidingWindowRateLimiter` instance: the two policy fields
set by `__init__` and the `user_messages` dictionary. `max_requests` is a
Python `int`, hence `ℤ`; `window_size` participates in arithmetic with
timestamps, hence `Time`. -/
@[ext] structure SlidingWindowRateLimiter where
  window_size : Time
  max_requests : ℤ
  user_messages : Key → Option (List Time)

/-- Python `__init__`: stores the two arguments and an empty dictionary.
The source performs no validation of the arguments. -/
def init (window_size : Time) (max_requests : ℤ) : SlidingWindowRateLimiter :=
  ⟨window_size, max_requests, fun _ => none⟩

/-- Dictionary assignment `d[k] = v`. -/
def dset (m : Key → Option (List Time)) (k : Key) (v : List Time) :
    Key → Option (List Time) :=
  fun k' => if k' = k then some v else m k'

/-- Dictionary deletion `del d[k]`. -/
def ddel (m : Key → Option (List Time)) (k : Key) : Key → Option (List Time) :=
  fun k' => if k' = k then none else m k'

/-- The list stored for a key, `[]` when the key is absent. -/
def stored (s : SlidingWindowRateLimiter) (u : Key) : List Time :=
  (s.user_messages u).getD []

/-- Python `_cleanup_window(user_id, current_time)`: if the key is absent do
nothing; otherwise pop entries from the left while
`current_time - d[u][0] >= window_size` (the `while` loop is `dropWhile`),
and delete the key if nothing is left. -/
def cleanup_window (s : SlidingWindowRateLimiter) (u : Key) (now : Time) :
    SlidingWindowRateLimiter :=
  match s.user_messages u with
  | none => s
  | some l =>
    let kept := l.dropWhile fun t => decide (now - t ≥ s.window_size)
    if kept = [] then { s with user_messages := ddel s.user_messages u }
    else { s with user_messages := dset s.user_messages u kept }

/-- Python `can_send_message(user_id)` with the `time.time()` reading made
explicit as `now`.  Runs `_cleanup_window`, returns `True` when the key is
absent or has fewer than `max_requests` entries, otherwise compares the oldest
entry `d[u][0]` against the window.  The returned pair is (return value,
state after the call), since the eviction mutates `self`.  The `[]` branch of
the inner match is unreachable: after `_cleanup_window` a present key has a
non-empty deque (Python would raise `IndexError` on `d[u][0]` there). -/
def can_send_message (s : SlidingWindowRateLimiter) (u : Key) (now : Time) :
    Bool × SlidingWindowRateLimiter :=
  let s' := cleanup_window s u now
  match s'.user_messages u with
  | none => (true, s')
  | some l =>
    if (l.length : ℤ) < s'.max_requests then (true, s')
    else
      match l with
      | [] => (false, s')
      | oldest :: _ => (decide (now - oldest ≥ s'.window_size), s')

/-- Python `record_message(user_id)`.  The source reads the clock twice: once
inside the `can_send_message` call (`now1`) and once afterwards for the
appended timestamp (`now2 = time.time()` on line 46).  On rejection it
returns `False` with the state left by `can_send_message` (whose eviction
persists); on admission it creates the deque if the key is new and appends
`now2`. -/
def record_message (s : SlidingWindowRateLimiter) (u : Key) (now1 now2 : Time) :
    Bool × SlidingWindowRateLimiter :=
  match can_send_message s u now1 with
  | (false, s') => (false, s')
  | (true, s') =>
    let l := (s'.user_messages u).getD []
    (true, { s' with user_messages := dset s'.user_messages u (l ++ [now2]) })

/-- Python `time_until_next_allowed(user_id)` with the `time.time()` reading
explicit.  Runs `_cleanup_window`, returns `0.0` when the key is absent or
below the limit, otherwise `max 0 ((oldest + window_size) - now)`.  As in
`can_send_message` the `[]` branch is unreachable. -/
def time_until_next_allowed (s : SlidingWindowRateLimiter) (u : Key)
    (now : Time) : Time × SlidingWindowRateLimiter :=
  let s' := cleanup_window s u now
  match s'.user_messages u with
  | none => (0, s')
  | some l =>
    if (l.length : ℤ) < s'.max_requests then (0, s')
    else
      match l with
      | [] => (0, s')
      | oldest :: _ => (max 0 ((oldest + s'.window_size) - now), s')

/-! ### Characterisation lemmas for the operations -/

/-- The eviction performed by `_cleanup_window` on one list. -/
def evictList (W now : Time) (l : List Time) : List Time :=
  l.dropWhile fun t => decide (now - t ≥ W)

/-- The effect of `_cleanup_window` on one dictionary entry. -/
def evictOpt (W now : Time) : Option (List Time) → Option (List Time)
  | none => none
  | some l => if evictList W now l = [] then none else some (evictList W now l)

/-- The simplified admission check of claim C10, written from the claim's
words (evict, then admit iff strictly fewer than `max_requests` entries
survive), to be compared with `can_send_message`. -/
def can_send_simple (s : SlidingWindowRateLimiter) (u : Key) (now : Time) :
    Bool × SlidingWindowRateLimiter :=
  let s' := cleanup_window s u now
  match s'.user_messages u with
  | none => (true, s')
  | some l => (decide ((l.length : ℤ) < s'.max_requests), s')

/-- Well-formedness of the mapping: no key stores an empty deque (keys whose
deque empties are deleted instead). -/
def WFmap (s : SlidingWindowRateLimiter) : Prop :=
  ∀ u, s.user_messages u ≠ some []

/-- One public API call, together with the clock reading(s) `time.time()`
performs during it.  `record` carries two readings because the source reads
the clock twice in `record_message`. -/
inductive Op where
  | canSend (u : Key) (t : Time)
  | record (u : Key) (t1 t2 : Time)
  | wait (u : Key) (t : Time)
deriving DecidableEq

/-- The key an operation touches. -/
def Op.key : Op → Key
  | canSend u _ => u
  | record u _ _ => u
  | wait u _ => u

/-- The first clock reading of an operation. -/
def opStart : Op → Time
  | .canSend _ t => t
  | .record _ t1 _ => t1
  | .wait _ t => t

/-- The last clock reading of an operation. -/
def opEnd : Op → Time
  | .canSend _ t => t
  | .record _ _ t2 => t2
  | .wait _ t => t

/-- The state after one operation. -/
def applyOp (s : SlidingWindowRateLimiter) : Op → SlidingWindowRateLimiter
  | .canSend u t => (can_send_message s u t).2
  | .record u t1 t2 => (record_message s u t1 t2).2
  | .wait u t => (time_until_next_allowed s u t).2

/-- The state after a sequence of operations. -/
def run (s : SlidingWindowRateLimiter) : List Op → SlidingWindowRateLimiter
  | [] => s
  | o :: os => run (applyOp s o) os

/-- The visible result of one operation (a boolean for `canSend` and
`record`, a duration for `wait`). -/
inductive Out where
  | ob (b : Bool)
  | oq (q : Time)
deriving DecidableEq

/-- The result of one operation on a given state. -/
def opOut (s : SlidingWindowRateLimiter) : Op → Out
  | .canSend u t => .ob (can_send_message s u t).1
  | .record u t1 t2 => .ob (record_message s u t1 t2).1
  | .wait u t => .oq (time_until_next_allowed s u t).1

/-- The results of a sequence of operations, in order. -/
def outputs (s : SlidingWindowRateLimiter) : List Op → List Out
  | [] => []
  | o :: os => opOut s o :: outputs (applyOp s o) os

/-- The timestamps admitted for key `u` by a single operation: a `record` on
`u` that returns `True` contributes its appended timestamp. -/
def admittedOne (s : SlidingWindowRateLimiter) (o : Op) (u : Key) :
    List Time :=
  match o with
  | .record u' t1 t2 =>
    if u' = u then (if (record_message s u' t1 t2).1 then [t2] else []) else []
  | _ => []

/-- All timestamps admitted for key `u` along a sequence of operations. -/
def admitted (s : SlidingWindowRateLimiter) : List Op → Key → List Time
  | [], _ => []
  | o :: os, u => admittedOne s o u ++ admitted (applyOp s o) os u

/-- The clock is monotonically non-decreasing along a sequence of
operations, starting no earlier than `τ`. -/
def ClockOK : Time → List Op → Bool
  | _, [] => true
  | τ, o :: os =>
    decide (τ ≤ opStart o) && decide (opStart o ≤ opEnd o) && ClockOK (opEnd o) os

/-- How many timestamps of `l` lie in the half-open trailing window
`(T - W, T]`. -/
def countInWindow (W T : Time) (l : List Time) : ℕ :=
  l.countP fun t => decide (T - W < t ∧ t ≤ T)

/-- The clock value after a sequence of operations (the last reading taken,
or the starting bound for an empty sequence). -/
def traceEnd : Time → List Op → Time
  | τ, [] => τ
  | _, o :: os => traceEnd (opEnd o) os

/-- The execution invariant behind the bound property: the policy fields are
fixed; for each key the admitted timestamps `A u` split as evicted-part ++
stored-part, with every evicted timestamp at least one window old; all
admitted timestamps are in the past; and every trailing window of the
admitted timestamps holds at most `maxR` of them. -/
def Inv (W : Time) (maxR : ℤ) (A : Key → List Time)
    (s : SlidingWindowRateLimiter) (τ : Time) : Prop :=
  s.window_size = W ∧ s.max_requests = maxR ∧
  (∀ u, ∃ P, A u = P ++ stored s u ∧ ∀ t ∈ P, t ≤ τ - W) ∧
  (∀ u, ∀ t ∈ A u, t ≤ τ) ∧
  (∀ u T, ((countInWindow W T (A u) : ℕ) : ℤ) ≤ maxR)

theorem cleanup_window_size (s : SlidingWindowRateLimiter) (u : Key)
    (now : Time) : (cleanup_window s u now).window_size = s.window_size := by
  cases h : s.user_messages u with
  | none => simp [cleanup_window, h]
  | some l =>
    simp only [cleanup_window, h]
    split <;> rfl

theorem cleanup_max_requests (s : SlidingWindowRateLimiter) (u : Key)
    (now : Time) : (cleanup_window s u now).max_requests = s.max_requests := by
  cases h : s.user_messages u with
  | none => simp [cleanup_window, h]
  | some l =>
    simp only [cleanup_window, h]
    split <;> rfl

theorem cleanup_lookup (s : SlidingWindowRateLimiter) (u : Key) (now : Time)
    (u' : Key) :
    (cleanup_window s u now).user_messages u' =
      if u' = u then evictOpt s.window_size now (s.user_messages u)
      else s.user_messages u' := by
  cases h : s.user_messages u with
  | none =>
    simp only [cleanup_window, h, evictOpt]
    split <;> simp_all
  | some l =>
    simp only [cleanup_window, h, evictOpt, evictList]
    split
    · rename_i hnil
      simp only [hnil, ddel, if_pos rfl]
    · rename_i hnil
      simp only [hnil, dset, if_neg hnil]

theorem evictOpt_ne_some_nil (W now : Time) (o : Option (List Time)) :
    evictOpt W now o ≠ some [] := by
  cases o with
  | none => simp [evictOpt]
  | some l =>
    simp only [evictOpt]
    split
    · simp
    · simp_all

theorem evictList_head_lt (W now : Time) (l : List Time) (oldest : Time)
    (rest : List Time) (h : evictList W now l = oldest :: rest) :
    now - oldest < W := by
  induction l with
  | nil => simp [evictList] at h
  | cons a as ih =>
    simp only [evictList, List.dropWhile_cons] at h ih
    by_cases ha : now - a ≥ W
    · rw [if_pos (by simpa using ha)] at h
      exact ih h
    · rw [if_neg (by simpa using ha)] at h
      obtain ⟨h1, _⟩ := List.cons.injEq .. ▸ h
      exact h1 ▸ lt_of_not_ge ha

theorem can_send_snd (s : SlidingWindowRateLimiter) (u : Key) (now : Time) :
    (can_send_message s u now).2 = cleanup_window s u now := by
  cases h : (cleanup_window s u now).user_messages u with
  | none => simp [can_send_message, h]
  | some l =>
    simp only [can_send_message, h]
    split
    · rfl
    · cases l <;> rfl

theorem wait_snd (s : SlidingWindowRateLimiter) (u : Key) (now : Time) :
    (time_until_next_allowed s u now).2 = cleanup_window s u now := by
  cases h : (cleanup_window s u now).user_messages u with
  | none => simp [time_until_next_allowed, h]
  | some l =>
    simp only [time_until_next_allowed, h]
    split
    · rfl
    · cases l <;> rfl

theorem can_send_fst (s : SlidingWindowRateLimiter) (u : Key) (now : Time) :
    (can_send_message s u now).1 =
      (match (cleanup_window s u now).user_messages u with
       | none => true
       | some l => decide ((l.length : ℤ) < s.max_requests)) := by
  cases h : (cleanup_window s u now).user_messages u with
  | none => simp [can_send_message, h]
  | some l =>
    simp only [can_send_message, h, cleanup_max_requests]
    split
    · rename_i hlt
      simp [hlt]
    · rename_i hlt
      cases hl : l with
      | nil =>
        have hge : ¬ ((((List.length ([] : List Time)) : ℕ) : ℤ) <
            s.max_requests) := hl ▸ hlt
        simp at hge
        simp [hge]
      | cons oldest rest =>
        have hev : evictOpt s.window_size now (s.user_messages u) =
            some (oldest :: rest) := by
          rw [← hl, ← h, cleanup_lookup]; simp
        have hlist : ∃ l0, s.user_messages u = some l0 ∧
            evictList s.window_size now l0 = oldest :: rest := by
          cases ho : s.user_messages u with
          | none => rw [ho] at hev; simp [evictOpt] at hev
          | some l0 =>
            refine ⟨l0, rfl, ?_⟩
            rw [ho] at hev
            simp only [evictOpt] at hev
            split at hev
            · exact absurd hev (by simp)
            · simpa using hev
        obtain ⟨l0, _, hlist⟩ := hlist
        have hlt2 := evictList_head_lt s.window_size now l0 oldest rest hlist
        have hge : ¬ ((((List.length (oldest :: rest)) : ℕ) : ℤ) <
            s.max_requests) := hl ▸ hlt
        simp at hge
        rw [cleanup_window_size]
        simp [not_le.mpr hlt2]
        omega

theorem record_fst (s : SlidingWindowRateLimiter) (u : Key) (t1 t2 : Time) :
    (record_message s u t1 t2).1 = (can_send_message s u t1).1 := by
  rcases hc : can_send_message s u t1 with ⟨b, s'⟩
  cases b <;> simp [record_message, hc]

theorem record_snd_true (s : SlidingWindowRateLimiter) (u : Key) (t1 t2 : Time)
    (h : (can_send_message s u t1).1 = true) :
    (record_message s u t1 t2).2 =
      { cleanup_window s u t1 with
        user_messages := dset (cleanup_window s u t1).user_messages u
          (stored (cleanup_window s u t1) u ++ [t2]) } := by
  rcases hc : can_send_message s u t1 with ⟨b, s'⟩
  have hb : b = true := by rw [hc] at h; exact h
  have hs : s' = cleanup_window s u t1 := by
    have h2 := can_send_snd s u t1; rw [hc] at h2; exact h2
  subst hb; subst hs
  simp [record_message, hc, stored]

theorem record_snd_false (s : SlidingWindowRateLimiter) (u : Key)
    (t1 t2 : Time) (h : (can_send_message s u t1).1 = false) :
    (record_message s u t1 t2).2 = cleanup_window s u t1 := by
  rcases hc : can_send_message s u t1 with ⟨b, s'⟩
  have hb : b = false := by rw [hc] at h; exact h
  have hs : s' = cleanup_window s u t1 := by
    have h2 := can_send_snd s u t1; rw [hc] at h2; exact h2
  subst hb; subst hs
  simp [record_message, hc]

theorem wait_fst_none (s : SlidingWindowRateLimiter) (u : Key) (now : Time)
    (h : (cleanup_window s u now).user_messages u = none) :
    (time_until_next_allowed s u now).1 = 0 := by
  simp [time_until_next_allowed, h]

theorem wait_fst_lt (s : SlidingWindowRateLimiter) (u : Key) (now : Time)
    (l : List Time) (h : (cleanup_window s u now).user_messages u = some l)
    (hlt : (l.length : ℤ) < s.max_requests) :
    (time_until_next_allowed s u now).1 = 0 := by
  simp only [time_until_next_allowed, h, cleanup_max_requests]
  rw [if_pos hlt]

theorem wait_fst_ge (s : SlidingWindowRateLimiter) (u : Key) (now : Time)
    (oldest : Time) (rest : List Time)
    (h : (cleanup_window s u now).user_messages u = some (oldest :: rest))
    (hge : ¬ (((oldest :: rest).length : ℤ) < s.max_requests)) :
    (time_until_next_allowed s u now).1 =
      max 0 ((oldest + s.window_size) - now) := by
  simp only [time_until_next_allowed, h, cleanup_max_requests,
    cleanup_window_size]
  rw [if_neg hge]

theorem dropWhile_dropWhile_of_imp {α : Type} (p q : α → Bool)
    (h : ∀ a, q a = true → p a = true) (l : List α) :
    (l.dropWhile q).dropWhile p = l.dropWhile p := by
  induction l with
  | nil => rfl
  | cons a as ih =>
    by_cases hq : q a = true
    · rw [List.dropWhile_cons_of_pos hq, ih, List.dropWhile_cons_of_pos (h a hq)]
    · rw [List.dropWhile_cons_of_neg (by simpa using hq)]

theorem evictList_evictList (W t t' : Time) (ht : t ≤ t') (l : List Time) :
    evictList W t' (evictList W t l) = evictList W t' l := by
  simp only [evictList]
  apply dropWhile_dropWhile_of_imp
  intro a ha
  simp only [decide_eq_true_eq] at ha ⊢
  linarith

theorem evictOpt_evictOpt (W t t' : Time) (ht : t ≤ t')
    (o : Option (List Time)) :
    evictOpt W t' (evictOpt W t o) = evictOpt W t' o := by
  cases o with
  | none => rfl
  | some l =>
    by_cases hnil : evictList W t l = []
    · have h2 : evictList W t' l = [] := by
        rw [← evictList_evictList W t t' ht l, hnil]; rfl
      simp [evictOpt, hnil, h2]
    · by_cases hnil2 : evictList W t' (evictList W t l) = []
      · have h3 : evictList W t' l = [] := by
          rw [← evictList_evictList W t t' ht l]; exact hnil2
        simp [evictOpt, hnil, hnil2, h3]
      · have h3 : ¬ evictList W t' l = [] := by
          rw [← evictList_evictList W t t' ht l]; exact hnil2
        simp [evictOpt, hnil, hnil2, h3, evictList_evictList W t t' ht l]

theorem cleanup_self_ne_some_nil (s : SlidingWindowRateLimiter) (u : Key)
    (now : Time) : (cleanup_window s u now).user_messages u ≠ some [] := by
  rw [cleanup_lookup]
  simpa using evictOpt_ne_some_nil s.window_size now (s.user_messages u)

theorem can_send_simple_snd (s : SlidingWindowRateLimiter) (u : Key)
    (now : Time) : (can_send_simple s u now).2 = cleanup_window s u now := by
  cases h : (cleanup_window s u now).user_messages u with
  | none => simp [can_send_simple, h]
  | some l => simp [can_send_simple, h]

/-! ### The claims -/

/-- C10: after eviction has run with the same `now`, the oldest-surviving
branch of `can_send_message` is unreachable: `can_send_message` is
extensionally equal to the simplified check that evicts and then admits iff
strictly fewer than `max_requests` entries survive (so with exactly
`max_requests` surviving entries it always returns `False`). -/
theorem claim_C10_oldest_branch_unreachable (s : SlidingWindowRateLimiter)
    (u : Key) (now : Time) :
    can_send_message s u now = can_send_simple s u now := by
  refine Prod.ext_iff.mpr ⟨?_, ?_⟩
  · rw [can_send_fst]
    cases h : (cleanup_window s u now).user_messages u with
    | none => simp [can_send_simple, h]
    | some l => simp [can_send_simple, h, cleanup_max_requests]
  · rw [can_send_snd, can_send_simple_snd]

/-- C2 counterexample: construction with `window_size = 0` and
`max_requests = 0` (both non-positive) does not fail: it returns a limiter
with an empty mapping, and that instance is usable — `record_message`
on it runs normally and even admits a message.  This contradicts the claim
that construction raises `InvalidPolicy` and the instance is unusable. -/
theorem claim_C2_counterexample :
    init (0 : Time) (0 : ℤ) =
      ⟨(0 : Time), (0 : ℤ), fun _ => none⟩ ∧
    (record_message (init 0 0) "u1" 0 0).1 = true := by
  exact ⟨rfl, by decide⟩

/-- C2 amended: construction performs no validation.  For every
`window_size` and `max_requests` — positive or not — it succeeds, stores the
two fields unchanged with an empty key mapping, and the resulting instance
is usable (a `record_message` call runs normally and admits). -/
theorem claim_C2_no_validation (W : Time) (maxR : ℤ) (u : Key)
    (t1 t2 : Time) :
    (init W maxR).window_size = W ∧ (init W maxR).max_requests = maxR ∧
    (init W maxR).user_messages = (fun _ => none) ∧
    (record_message (init W maxR) u t1 t2).1 = true := by
  refine ⟨rfl, rfl, rfl, ?_⟩
  rw [record_fst, can_send_fst]
  have h : (cleanup_window (init W maxR) u t1).user_messages u = none := by
    rw [cleanup_lookup]
    simp [init, evictOpt]
  rw [h]

/-- C5: the source reads the clock twice inside one `record_message` call —
once in `can_send_message` (`now1`) and once for the appended timestamp
(`now2`) — contradicting the single-reading requirement.  Evaluated at the
failing input (fresh limiter, window 10, limit 1, first reading 0, second
reading 5): the admissibility check uses time 0 but the recorded timestamp
is 5, and the divergence is observable — a later `can_send_message` at time
10 refuses, whereas with a single reading the stored timestamp would be 0
and time 10 would be allowed. -/
theorem claim_C5_two_clock_reads :
    (record_message (init 10 1) "u1" 0 5).1 = true ∧
    (record_message (init 10 1) "u1" 0 5).2.user_messages "u1" = some [5] ∧
    (can_send_message (record_message (init 10 1) "u1" 0 5).2 "u1" 10).1
      = false ∧
    (can_send_message (record_message (init 10 1) "u1" 0 0).2 "u1" 10).1
      = true := by
  refine ⟨by decide, by decide, by decide, by decide⟩

theorem evictList_eq_filter (W now : Time) (l : List Time)
    (hsort : l.Sorted (· ≤ ·)) :
    evictList W now l = l.filter (fun t => decide (¬ (now - t ≥ W))) := by
  induction l with
  | nil => rfl
  | cons a as ih =>
    have hs := List.sorted_cons.mp hsort
    by_cases ha : now - a ≥ W
    · rw [evictList, List.dropWhile_cons_of_pos (by simpa using ha),
        List.filter_cons_of_neg (by simpa using ha)]
      exact ih hs.2
    · rw [evictList, List.dropWhile_cons_of_neg (by simpa using ha),
        List.filter_cons_of_pos (by simpa using ha)]
      congr 1
      symm
      rw [List.filter_eq_self]
      intro b hb
      have hab : a ≤ b := hs.1 b hb
      simp only [decide_eq_true_eq]
      intro hgeb
      exact ha (le_trans hgeb (by linarith))

theorem stored_cleanup_self (s : SlidingWindowRateLimiter) (u : Key)
    (now : Time) :
    stored (cleanup_window s u now) u = evictList s.window_size now
      (stored s u) := by
  rw [stored, cleanup_lookup, if_pos rfl]
  cases h : s.user_messages u with
  | none => simp [evictOpt, stored, h, evictList]
  | some l =>
    simp only [evictOpt, stored, h]
    split
    · rename_i hnil
      simp [hnil]
    · simp

/-- C3: `can_send_message` first evicts every timestamp `t` with
`now - t ≥ window_size` (inclusive at exactly `window_size`), then returns
`True` iff the key has fewer than `max_requests` surviving entries (possibly
none) or the oldest survivor is itself at least `window_size` old; and in
the concrete boundary scenario (window 10, limit 1) a `record_message` for
the same key exactly 10 seconds after an admitted one returns `True`.
Stated for well-formed states (sorted timestamp list, as guaranteed by the
data-model invariant) and valid policies (`max_requests ≥ 1`). -/
theorem claim_C3_can_send_rule (s : SlidingWindowRateLimiter) (u : Key)
    (now : Time) (hsort : (stored s u).Sorted (· ≤ ·))
    (hmax : 1 ≤ s.max_requests) :
    (stored (can_send_message s u now).2 u =
      (stored s u).filter (fun t => decide (¬ (now - t ≥ s.window_size)))) ∧
    ((can_send_message s u now).1 = true ↔
      ((((stored s u).filter
            (fun t => decide (¬ (now - t ≥ s.window_size)))).length : ℤ) <
          s.max_requests ∨
        (∃ oldest rest,
          (stored s u).filter (fun t => decide (¬ (now - t ≥ s.window_size)))
            = oldest :: rest ∧ now - oldest ≥ s.window_size))) ∧
    (record_message (record_message (init 10 1) "u1" 0 0).2 "u1" 10 10).1
      = true := by
  have hfil : evictList s.window_size now (stored s u) =
      (stored s u).filter (fun t => decide (¬ (now - t ≥ s.window_size))) :=
    evictList_eq_filter s.window_size now (stored s u) hsort
  refine ⟨?_, ?_, by decide⟩
  · rw [can_send_snd, stored_cleanup_self, hfil]
  · rw [can_send_fst]
    have hlook : (cleanup_window s u now).user_messages u =
        evictOpt s.window_size now (s.user_messages u) := by
      rw [cleanup_lookup, if_pos rfl]
    cases h : s.user_messages u with
    | none =>
      rw [h] at hlook
      rw [hlook]
      have hstored : stored s u = [] := by simp [stored, h]
      simp only [evictOpt, hstored, List.filter_nil]
      constructor
      · intro _
        left
        simpa using hmax
      · intro _
        trivial
    | some l =>
      rw [h] at hlook
      have hstored : stored s u = l := by simp [stored, h]
      have hfil' := hfil
      rw [hstored] at hfil'
      by_cases hnil : evictList s.window_size now l = []
      · rw [hlook]
        simp only [evictOpt, if_pos hnil]
        rw [hstored, ← hfil', hnil]
        constructor
        · intro _
          left
          simpa using hmax
        · intro _
          trivial
      · rw [hlook]
        simp only [evictOpt, if_neg hnil]
        rw [hstored, ← hfil']
        constructor
        · intro hdec
          left
          simpa using hdec
        · intro hor
          rcases hor with hlt | ⟨oldest, rest, hcons, hge⟩
          · simpa using hlt
          · exact absurd hge
              (not_le.mpr (evictList_head_lt s.window_size now l oldest rest
                hcons))

/-- Witness for C3 at a concrete input: the fresh limiter with window 10 and
limit 1 has a sorted (empty) list for `"u1"` and a valid policy, and the
admission rule evaluates as the claim states. -/
theorem claim_C3_witness :
    ((stored (init (10 : Time) 1) "u1").Sorted (· ≤ ·) ∧
      (1 : ℤ) ≤ (init (10 : Time) 1).max_requests) ∧
    (can_send_message (init (10 : Time) 1) "u1" 5).1 = true := by
  refine ⟨⟨by decide, by decide⟩, ?_⟩
  exact (claim_C3_can_send_rule (init 10 1) "u1" 5 (by decide)
    (by decide)).2.1.mpr (Or.inl (by decide))

/-- C6: `time_until_next_allowed` evicts first (its final state is exactly
the cleaned state), returns 0 when the key is absent or below the limit
after eviction, otherwise returns `(oldest + window_size) - now` floored at
0; and the result is never negative. -/
theorem claim_C6_wait_time (s : SlidingWindowRateLimiter) (u : Key)
    (now : Time) :
    0 ≤ (time_until_next_allowed s u now).1 ∧
    (time_until_next_allowed s u now).2 = cleanup_window s u now ∧
    ((cleanup_window s u now).user_messages u = none →
      (time_until_next_allowed s u now).1 = 0) ∧
    (∀ l, (cleanup_window s u now).user_messages u = some l →
      (l.length : ℤ) < s.max_requests →
      (time_until_next_allowed s u now).1 = 0) ∧
    (∀ oldest rest,
      (cleanup_window s u now).user_messages u = some (oldest :: rest) →
      ¬ (((oldest :: rest).length : ℤ) < s.max_requests) →
      (time_until_next_allowed s u now).1 =
        max 0 ((oldest + s.window_size) - now)) := by
  refine ⟨?_, wait_snd s u now, wait_fst_none s u now,
    fun l h hlt => wait_fst_lt s u now l h hlt,
    fun oldest rest h hge => wait_fst_ge s u now oldest rest h hge⟩
  cases h : (cleanup_window s u now).user_messages u with
  | none => rw [wait_fst_none s u now h]
  | some l =>
    by_cases hlt : (l.length : ℤ) < s.max_requests
    · rw [wait_fst_lt s u now l h hlt]
    · cases l with
      | nil => exact absurd h (cleanup_self_ne_some_nil s u now)
      | cons oldest rest =>
        rw [wait_fst_ge s u now oldest rest h hlt]
        exact le_max_left 0 _

/-- Witness for C6 at a concrete input: after admitting `"u1"` at time 0
under window 10 and limit 1, the wait time queried at time 5 is
`max 0 ((0 + 10) - 5) = 5`, and it is non-negative. -/
theorem claim_C6_witness :
    0 ≤ (time_until_next_allowed
          (record_message (init (10 : Time) 1) "u1" 0 0).2 "u1" 5).1 ∧
    (time_until_next_allowed
        (record_message (init (10 : Time) 1) "u1" 0 0).2 "u1" 5).1 =
      max 0 ((0 + 10) - 5) := by
  constructor
  · exact (claim_C6_wait_time _ "u1" 5).1
  · exact (claim_C6_wait_time
      (record_message (init (10 : Time) 1) "u1" 0 0).2 "u1" 5).2.2.2.2
      0 [] (by decide) (by decide)

theorem mem_evictList_of_not_expired (W now : Time) (l : List Time)
    (t : Time) (ht : t ∈ l) (hne : ¬ (now - t ≥ W)) :
    t ∈ evictList W now l := by
  have hsplit :
      l.takeWhile (fun t => decide (now - t ≥ W)) ++
        l.dropWhile (fun t => decide (now - t ≥ W)) = l :=
    List.takeWhile_append_dropWhile (fun t => decide (now - t ≥ W)) l
  rw [← hsplit] at ht
  rcases List.mem_append.mp ht with htw | hdw
  · exact absurd (by simpa using List.mem_takeWhile_imp htw) hne
  · exact hdw

/-- C4: `record_message` returns exactly what the `can_send_message` rule
decides (same `now`); on admission it appends exactly the one timestamp
`now2` to the key's evicted sequence (creating the sequence if the key was
new) and leaves every other key alone; on rejection its final state is
exactly the state `can_send_message` left (eviction of expired entries
only), so every unexpired recorded timestamp is still stored. -/
theorem claim_C4_record_semantics (s : SlidingWindowRateLimiter) (u : Key)
    (t1 t2 : Time) :
    ((record_message s u t1 t2).1 = (can_send_message s u t1).1) ∧
    ((can_send_message s u t1).1 = true →
      (record_message s u t1 t2).2.user_messages u =
        some (stored (cleanup_window s u t1) u ++ [t2]) ∧
      (∀ u', u' ≠ u → (record_message s u t1 t2).2.user_messages u' =
        (cleanup_window s u t1).user_messages u')) ∧
    ((can_send_message s u t1).1 = false →
      (record_message s u t1 t2).2 = cleanup_window s u t1 ∧
      (∀ t ∈ stored s u, ¬ (t1 - t ≥ s.window_size) →
        t ∈ stored (record_message s u t1 t2).2 u)) := by
  refine ⟨record_fst s u t1 t2, ?_, ?_⟩
  · intro htrue
    rw [record_snd_true s u t1 t2 htrue]
    constructor
    · simp [dset]
    · intro u' hne
      simp [dset, hne]
  · intro hfalse
    refine ⟨record_snd_false s u t1 t2 hfalse, ?_⟩
    intro t ht hexp
    rw [record_snd_false s u t1 t2 hfalse, stored_cleanup_self]
    exact mem_evictList_of_not_expired s.window_size t1 (stored s u) t ht hexp

/-- Witness for C4 at a concrete input: admitting `"u1"` at time 0 on a
fresh limiter returns the `can_send_message` verdict and stores exactly the
appended timestamp. -/
theorem claim_C4_witness :
    (record_message (init (10 : Time) 1) "u1" 0 0).1 =
      (can_send_message (init (10 : Time) 1) "u1" 0).1 ∧
    (record_message (init (10 : Time) 1) "u1" 0 0).2.user_messages "u1" =
      some (stored (cleanup_window (init (10 : Time) 1) "u1" 0) "u1"
        ++ [0]) := by
  exact ⟨(claim_C4_record_semantics (init 10 1) "u1" 0 0).1,
    ((claim_C4_record_semantics (init 10 1) "u1" 0 0).2.1 (by decide)).1⟩

/-- C9: keys are independent.  Any public operation on key `u` leaves the
stored entry of every other key `u'` unchanged, and the result of any public
operation on `u` does not depend on the state of other keys: two limiters
with the same policy that agree on `u`'s entry produce the same results for
`u`. -/
theorem claim_C9_key_independence (s₂ s : SlidingWindowRateLimiter)
    (u u' : Key) (t t1 t2 : Time) (hne : u' ≠ u)
    (hW : s₂.window_size = s.window_size)
    (hM : s₂.max_requests = s.max_requests)
    (hagree : s₂.user_messages u = s.user_messages u) :
    ((can_send_message s u t).2.user_messages u' = s.user_messages u' ∧
     (time_until_next_allowed s u t).2.user_messages u' =
       s.user_messages u' ∧
     (record_message s u t1 t2).2.user_messages u' = s.user_messages u') ∧
    ((can_send_message s₂ u t).1 = (can_send_message s u t).1 ∧
     (time_until_next_allowed s₂ u t).1 =
       (time_until_next_allowed s u t).1 ∧
     (record_message s₂ u t1 t2).1 = (record_message s u t1 t2).1) := by
  have hlookAt : ∀ τ : Time, (cleanup_window s₂ u τ).user_messages u =
      (cleanup_window s u τ).user_messages u := by
    intro τ
    rw [cleanup_lookup, cleanup_lookup, if_pos rfl, if_pos rfl, hagree, hW]
  have hcsAt : ∀ τ : Time,
      (can_send_message s₂ u τ).1 = (can_send_message s u τ).1 := by
    intro τ
    rw [can_send_fst, can_send_fst, hlookAt τ, hM]
  refine ⟨⟨?_, ?_, ?_⟩, hcsAt t, ?_, ?_⟩
  · rw [can_send_snd, cleanup_lookup, if_neg hne]
  · rw [wait_snd, cleanup_lookup, if_neg hne]
  · cases hc : (can_send_message s u t1).1 with
    | true =>
      rw [record_snd_true s u t1 t2 hc]
      simp only [dset, if_neg hne]
      rw [cleanup_lookup, if_neg hne]
    | false =>
      rw [record_snd_false s u t1 t2 hc, cleanup_lookup, if_neg hne]
  · cases h : (cleanup_window s u t).user_messages u with
    | none =>
      rw [wait_fst_none s₂ u t ((hlookAt t).trans h), wait_fst_none s u t h]
    | some l =>
      by_cases hlt : (l.length : ℤ) < s.max_requests
      · rw [wait_fst_lt s₂ u t l ((hlookAt t).trans h) (hM ▸ hlt),
          wait_fst_lt s u t l h hlt]
      · cases l with
        | nil => exact absurd h (cleanup_self_ne_some_nil s u t)
        | cons oldest rest =>
          rw [wait_fst_ge s₂ u t oldest rest ((hlookAt t).trans h)
              (hM ▸ hlt), wait_fst_ge s u t oldest rest h hlt, hW]
  · rw [record_fst, record_fst]
    exact hcsAt t1

/-- Witness for C9 at a concrete input: the state of `"u2"` survives a
`record_message` on `"u1"` unchanged, and adding history for `"u2"` does not
change `"u1"`'s admission verdict. -/
theorem claim_C9_witness :
    (record_message (record_message (init (10 : Time) 1) "u2" 0 0).2
        "u1" 5 5).2.user_messages "u2" =
      (record_message (init (10 : Time) 1) "u2" 0 0).2.user_messages "u2" ∧
    (can_send_message (init (10 : Time) 1) "u1" 5).1 =
      (can_send_message (record_message (init (10 : Time) 1) "u2" 0 0).2
        "u1" 5).1 := by
  constructor
  · exact (claim_C9_key_independence
      (record_message (init (10 : Time) 1) "u2" 0 0).2
      (record_message (init (10 : Time) 1) "u2" 0 0).2 "u1" "u2" 5 5 5
      (by decide) rfl rfl rfl).1.2.2
  · exact (claim_C9_key_independence (init (10 : Time) 1)
      (record_message (init (10 : Time) 1) "u2" 0 0).2 "u1" "u2" 5 5 5
      (by decide) (by decide) (by decide) (by decide)).2.1

theorem WFmap_cleanup (s : SlidingWindowRateLimiter) (u : Key) (now : Time)
    (hwf : WFmap s) : WFmap (cleanup_window s u now) := by
  intro u'
  rw [cleanup_lookup]
  split
  · exact evictOpt_ne_some_nil s.window_size now (s.user_messages u)
  · exact hwf u'

theorem sorted_all_le_getLast (l : List Time)
    (hsort : l.Sorted (· ≤ ·)) (tl : Time) (h : l.getLast? = some tl) :
    ∀ t ∈ l, t ≤ tl := by
  induction l with
  | nil => simp at h
  | cons a as ih =>
    have hs := List.sorted_cons.mp hsort
    cases has : as with
    | nil =>
      subst has
      have ha : a = tl := by simpa using h
      intro t ht
      have : t = a := by simpa using ht
      rw [this, ha]
    | cons b bs =>
      subst has
      rw [List.getLast?_cons_cons] at h
      intro t ht
      rcases List.mem_cons.mp ht with rfl | ht'
      · have htl_mem : tl ∈ b :: bs := by
          rcases List.mem_getLast?_eq_getLast (Option.mem_def.mpr h) with
            ⟨hne, heq⟩
          exact heq ▸ List.getLast_mem hne
        exact hs.1 tl htl_mem
      · exact ih hs.2 h t ht'

/-- C7: after any public operation, the touched key is present in the
mapping iff its sequence survived eviction at that operation's `now`
(an admitting `record_message` always leaves it present); no key ever maps
to an empty sequence (well-formedness is preserved by every operation); and
a key whose last (sorted-list) timestamp is at least `window_size` old is
removed from the mapping by the operations that touch it. -/
theorem claim_C7_presence_invariant (s : SlidingWindowRateLimiter) (u : Key)
    (now t2 : Time) (hwf : WFmap s) :
    (WFmap (can_send_message s u now).2 ∧
     WFmap (time_until_next_allowed s u now).2 ∧
     WFmap (record_message s u now t2).2) ∧
    ((((can_send_message s u now).2.user_messages u).isSome ↔
      evictList s.window_size now (stored s u) ≠ []) ∧
     (((time_until_next_allowed s u now).2.user_messages u).isSome ↔
      evictList s.window_size now (stored s u) ≠ [])) ∧
    ((record_message s u now t2).1 = true →
      ((record_message s u now t2).2.user_messages u).isSome) ∧
    ((stored s u).Sorted (· ≤ ·) →
      (∀ tl, (stored s u).getLast? = some tl →
        now - tl ≥ s.window_size) →
      (can_send_message s u now).2.user_messages u = none ∧
      (time_until_next_allowed s u now).2.user_messages u = none) := by
  have hpres : ((cleanup_window s u now).user_messages u).isSome ↔
      evictList s.window_size now (stored s u) ≠ [] := by
    rw [cleanup_lookup, if_pos rfl]
    cases h : s.user_messages u with
    | none => simp [evictOpt, stored, h, evictList]
    | some l =>
      have hst : stored s u = l := by simp [stored, h]
      rw [hst]
      by_cases hnil : evictList s.window_size now l = []
      · simp [evictOpt, hnil]
      · simp [evictOpt, hnil]
  refine ⟨⟨?_, ?_, ?_⟩, ⟨?_, ?_⟩, ?_, ?_⟩
  · rw [can_send_snd]
    exact WFmap_cleanup s u now hwf
  · rw [wait_snd]
    exact WFmap_cleanup s u now hwf
  · cases hc : (can_send_message s u now).1 with
    | true =>
      rw [record_snd_true s u now t2 hc]
      intro u'
      by_cases hu : u' = u
      · subst hu
        simp [dset]
      · simp only [dset, if_neg hu]
        exact WFmap_cleanup s u now hwf u'
    | false =>
      rw [record_snd_false s u now t2 hc]
      exact WFmap_cleanup s u now hwf
  · rw [can_send_snd]
    exact hpres
  · rw [wait_snd]
    exact hpres
  · intro htrue
    rw [record_fst] at htrue
    rw [record_snd_true s u now t2 htrue]
    simp [dset]
  · intro hsort hlast
    have hall : ∀ t ∈ stored s u, now - t ≥ s.window_size := by
      cases hst : stored s u with
      | nil => simp
      | cons a as =>
        have hne : (a :: as) ≠ [] := by simp
        have hlast' := hlast ((a :: as).getLast hne)
          (by rw [hst]; exact List.getLast?_eq_getLast_of_ne_nil hne)
        intro t ht
        have hle : t ≤ (a :: as).getLast hne := by
          refine sorted_all_le_getLast (a :: as) (hst ▸ hsort)
            ((a :: as).getLast hne) (List.getLast?_eq_getLast_of_ne_nil hne)
            t ?_
          exact ht
        have := hlast'
        linarith
    have hnil : evictList s.window_size now (stored s u) = [] := by
      rw [evictList, List.dropWhile_eq_nil_iff]
      intro x hx
      simpa using hall x hx
    have hnone : (cleanup_window s u now).user_messages u = none := by
      rw [cleanup_lookup, if_pos rfl]
      cases h : s.user_messages u with
      | none => rfl
      | some l =>
        have hst : stored s u = l := by simp [stored, h]
        rw [hst] at hnil
        simp [evictOpt, hnil]
    rw [can_send_snd, wait_snd]
    exact ⟨hnone, hnone⟩

/-- Witness for C7 at a concrete input: the state after admitting `"u1"` at
time 0 (window 10, limit 1) is well formed, and an operation touching
`"u1"` at time 10 (its single timestamp then exactly one window old)
removes the key from the mapping. -/
theorem claim_C7_witness :
    WFmap (record_message (init (10 : Time) 1) "u1" 0 0).2 ∧
    (can_send_message (record_message (init (10 : Time) 1) "u1" 0 0).2
        "u1" 10).2.user_messages "u1" = none := by
  have hwf0 : WFmap (init (10 : Time) 1) := by
    intro u'
    simp [init]
  have hwf1 : WFmap (record_message (init (10 : Time) 1) "u1" 0 0).2 :=
    (claim_C7_presence_invariant (init (10 : Time) 1) "u1" 0 0 hwf0).1.2.2
  refine ⟨hwf1, ?_⟩
  refine ((claim_C7_presence_invariant
      (record_message (init (10 : Time) 1) "u1" 0 0).2 "u1" 10 0
      hwf1).2.2.2 (by decide) ?_).1
  intro tl htl
  have hst : stored (record_message (init (10 : Time) 1) "u1" 0 0).2 "u1"
      = [0] := by decide
  rw [hst] at htl
  have h0 : (0 : Time) = tl := by simpa using htl
  subst h0
  decide

theorem countInWindow_append (W T : Time) (l1 l2 : List Time) :
    countInWindow W T (l1 ++ l2) =
      countInWindow W T l1 + countInWindow W T l2 := by
  unfold countInWindow
  exact List.countP_append _ _ _

theorem countInWindow_eq_zero (W T : Time) (l : List Time)
    (h : ∀ t ∈ l, t ≤ T - W) : countInWindow W T l = 0 := by
  unfold countInWindow
  rw [List.countP_eq_zero]
  intro t ht
  have := h t ht
  simp only [decide_eq_true_eq, not_and]
  intro hlt
  linarith

theorem countInWindow_le_length (W T : Time) (l : List Time) :
    countInWindow W T l ≤ l.length :=
  List.countP_le_length _

theorem mem_takeWhile_expired (W now : Time) (l : List Time) :
    ∀ t ∈ l.takeWhile (fun t => decide (now - t ≥ W)), t ≤ now - W := by
  intro t ht
  have h := List.mem_takeWhile_imp ht
  simp only [decide_eq_true_eq] at h
  linarith

theorem Inv_congr (W : Time) (maxR : ℤ) (A A' : Key → List Time)
    (s : SlidingWindowRateLimiter) (τ : Time) (h : ∀ u, A u = A' u)
    (hinv : Inv W maxR A s τ) : Inv W maxR A' s τ := by
  have hAA : A = A' := funext h
  rw [← hAA]
  exact hinv

theorem Inv_mono (W : Time) (maxR : ℤ) (A : Key → List Time)
    (s : SlidingWindowRateLimiter) (τ τ' : Time) (h : τ ≤ τ')
    (hinv : Inv W maxR A s τ) : Inv W maxR A s τ' := by
  obtain ⟨hw, hm, hsplit, hle, hbound⟩ := hinv
  refine ⟨hw, hm, ?_, ?_, hbound⟩
  · intro u
    obtain ⟨P, hPA, hP⟩ := hsplit u
    exact ⟨P, hPA, fun t ht => by have := hP t ht; linarith⟩
  · intro u t ht
    have := hle u t ht
    linarith

theorem Inv_cleanup (W : Time) (maxR : ℤ) (A : Key → List Time)
    (s : SlidingWindowRateLimiter) (τ now : Time) (u0 : Key)
    (hinv : Inv W maxR A s τ) (hτ : τ ≤ now) :
    Inv W maxR A (cleanup_window s u0 now) now := by
  obtain ⟨hw, hm, hsplit, hle, hbound⟩ := hinv
  refine ⟨by rw [cleanup_window_size, hw], by rw [cleanup_max_requests, hm],
    ?_, ?_, hbound⟩
  · intro u
    obtain ⟨P, hPA, hP⟩ := hsplit u
    by_cases hu : u = u0
    · subst hu
      refine ⟨P ++ (stored s u).takeWhile
          (fun t => decide (now - t ≥ s.window_size)), ?_, ?_⟩
      · rw [stored_cleanup_self, evictList, hPA, List.append_assoc,
          List.takeWhile_append_dropWhile]
      · intro t ht
        rcases List.mem_append.mp ht with h1 | h2
        · have := hP t h1
          linarith
        · have h3 := mem_takeWhile_expired s.window_size now (stored s u) t h2
          rw [hw] at h3
          exact h3
    · refine ⟨P, ?_, fun t ht => by have := hP t ht; linarith⟩
      rw [hPA]
      rw [stored, stored, cleanup_lookup, if_neg hu]
  · intro u t ht
    have := hle u t ht
    linarith

theorem Inv_record_true (W : Time) (maxR : ℤ) (A : Key → List Time)
    (s : SlidingWindowRateLimiter) (τ : Time) (u : Key) (t1 t2 : Time)
    (hinv : Inv W maxR A s τ) (hmax : 1 ≤ maxR) (hτ : τ ≤ t1)
    (h12 : t1 ≤ t2) (hc : (can_send_message s u t1).1 = true) :
    Inv W maxR (fun v => A v ++ (if u = v then [t2] else []))
      (record_message s u t1 t2).2 t2 := by
  obtain ⟨hwC, hmC, hsplitC, hleC, hboundC⟩ :=
    Inv_cleanup W maxR A s τ t1 u hinv hτ
  have hstate := record_snd_true s u t1 t2 hc
  have hsm : s.max_requests = maxR := by
    rw [← cleanup_max_requests s u t1]
    exact hmC
  have hadm : ((stored (cleanup_window s u t1) u).length : ℤ) < maxR := by
    rw [can_send_fst] at hc
    cases h : (cleanup_window s u t1).user_messages u with
    | none =>
      rw [stored, h]
      simpa using lt_of_lt_of_le Int.zero_lt_one hmax
    | some l =>
      rw [h] at hc
      simp only [decide_eq_true_eq] at hc
      rw [stored, h, Option.getD_some]
      rw [hsm] at hc
      exact hc
  have hstSu : stored (record_message s u t1 t2).2 u =
      stored (cleanup_window s u t1) u ++ [t2] := by
    simp [hstate, stored, dset]
  have hstSv : ∀ v, v ≠ u → stored (record_message s u t1 t2).2 v =
      stored (cleanup_window s u t1) v := by
    intro v hv
    simp only [hstate, stored, dset]
    rw [if_neg hv]
  refine ⟨?_, ?_, ?_, ?_, ?_⟩
  · rw [hstate]
    exact hwC
  · rw [hstate]
    exact hmC
  · intro v
    show ∃ P, A v ++ (if u = v then [t2] else []) =
      P ++ stored (record_message s u t1 t2).2 v ∧ ∀ t ∈ P, t ≤ t2 - W
    by_cases hv : v = u
    · subst hv
      obtain ⟨P, hPA, hP⟩ := hsplitC v
      refine ⟨P, ?_, fun t ht => by have := hP t ht; linarith⟩
      rw [if_pos rfl, hstSu, hPA, List.append_assoc]
    · obtain ⟨P, hPA, hP⟩ := hsplitC v
      refine ⟨P, ?_, fun t ht => by have := hP t ht; linarith⟩
      rw [if_neg (fun h => hv h.symm), hstSv v hv, hPA, List.append_nil]
  · intro v t ht
    have ht' : t ∈ A v ++ (if u = v then [t2] else []) := ht
    rcases List.mem_append.mp ht' with h1 | h2
    · have := hleC v t h1
      linarith
    · by_cases hv : u = v
      · rw [if_pos hv] at h2
        have : t = t2 := by simpa using h2
        rw [this]
      · rw [if_neg hv] at h2
        simp at h2
  · intro v T
    show ((countInWindow W T (A v ++ if u = v then [t2] else []) : ℕ) : ℤ)
      ≤ maxR
    by_cases hv : u = v
    · subst hv
      rw [if_pos rfl, countInWindow_append]
      obtain ⟨P, hPA, hP⟩ := hsplitC u
      by_cases hwin : T - W < t2 ∧ t2 ≤ T
      · have h1 : countInWindow W T [t2] = 1 := by
          simp [countInWindow, hwin]
        have hPzero : countInWindow W T P = 0 := by
          refine countInWindow_eq_zero W T P (fun t ht => ?_)
          have := hP t ht
          have hTt2 : t2 ≤ T := hwin.2
          linarith
        have hkept : (countInWindow W T (stored (cleanup_window s u t1) u)
            : ℤ) < maxR :=
          lt_of_le_of_lt (by exact_mod_cast countInWindow_le_length W T _)
            hadm
        rw [hPA, countInWindow_append, hPzero, h1]
        push_cast
        omega
      · have h0 : countInWindow W T [t2] = 0 := by
          simp only [countInWindow, List.countP_cons, List.countP_nil]
          have : ¬ (T - W < t2 ∧ t2 ≤ T) := hwin
          simp [this]
        rw [h0]
        simpa using hboundC u T
    · rw [if_neg hv, List.append_nil]
      exact hboundC v T

theorem Inv_applyOp (W : Time) (maxR : ℤ) (hmax : 1 ≤ maxR) (o : Op)
    (A : Key → List Time) (s : SlidingWindowRateLimiter) (τ : Time)
    (hinv : Inv W maxR A s τ) (h1 : τ ≤ opStart o)
    (h2 : opStart o ≤ opEnd o) :
    Inv W maxR (fun v => A v ++ admittedOne s o v) (applyOp s o)
      (opEnd o) := by
  cases o with
  | canSend u t =>
    refine Inv_congr W maxR A _ _ _ (fun v => by simp [admittedOne]) ?_
    simp only [applyOp, opEnd]
    rw [can_send_snd]
    exact Inv_cleanup W maxR A s τ t u hinv h1
  | wait u t =>
    refine Inv_congr W maxR A _ _ _ (fun v => by simp [admittedOne]) ?_
    simp only [applyOp, opEnd]
    rw [wait_snd]
    exact Inv_cleanup W maxR A s τ t u hinv h1
  | record u t1 t2 =>
    simp only [opStart, opEnd] at h1 h2 ⊢
    cases hc : (can_send_message s u t1).1 with
    | true =>
      refine Inv_congr W maxR _ _ _ _ (fun v => ?_)
        (Inv_record_true W maxR A s τ u t1 t2 hinv hmax h1 h2 hc)
      simp [admittedOne, record_fst, hc]
    | false =>
      refine Inv_congr W maxR A _ _ _ (fun v => ?_) ?_
      · simp [admittedOne, record_fst, hc]
      · simp only [applyOp]
        rw [record_snd_false s u t1 t2 hc]
        exact Inv_mono W maxR A _ t1 t2 h2
          (Inv_cleanup W maxR A s τ t1 u hinv h1)

theorem Inv_run (W : Time) (maxR : ℤ) (hmax : 1 ≤ maxR) :
    ∀ (ops : List Op) (A : Key → List Time)
      (s : SlidingWindowRateLimiter) (τ : Time),
      Inv W maxR A s τ → ClockOK τ ops = true →
      Inv W maxR (fun v => A v ++ admitted s ops v) (run s ops)
        (traceEnd τ ops) := by
  intro ops
  induction ops with
  | nil =>
    intro A s τ hinv _
    exact Inv_congr W maxR A _ _ _ (fun v => by simp [admitted]) hinv
  | cons o os ih =>
    intro A s τ hinv hck
    simp only [ClockOK, Bool.and_eq_true, decide_eq_true_eq] at hck
    obtain ⟨⟨h1, h2⟩, hck'⟩ := hck
    have hrec := ih (fun v => A v ++ admittedOne s o v) (applyOp s o)
      (opEnd o) (Inv_applyOp W maxR hmax o A s τ hinv h1 h2) hck'
    refine Inv_congr W maxR _ _ _ _ (fun v => ?_) hrec
    simp [admitted, List.append_assoc]

/-- C1: for every key and every policy with `max_requests ≥ 1` and
`window_size > 0`, and for every sequence of public operations driven by a
monotonically non-decreasing clock starting from a fresh limiter, the number
of admitted record timestamps for that key inside any trailing half-open
window `(T - window_size, T]` never exceeds `max_requests`. -/
theorem claim_C1_sliding_window_bound (W : Time) (maxR : ℤ) (hW : 0 < W)
    (hmax : 1 ≤ maxR) (τ0 : Time) (ops : List Op)
    (hck : ClockOK τ0 ops = true) (u : Key) (T : Time) :
    ((countInWindow W T (admitted (init W maxR) ops u) : ℕ) : ℤ) ≤ maxR := by
  have hinv0 : Inv W maxR (fun _ => []) (init W maxR) τ0 := by
    refine ⟨rfl, rfl, fun v => ⟨[], by simp [stored, init], by simp⟩,
      by simp, ?_⟩
    intro v T'
    simp only [countInWindow, List.countP_nil]
    push_cast
    omega
  have hinv := Inv_run W maxR hmax ops (fun _ => []) (init W maxR) τ0
    hinv0 hck
  have hbound := hinv.2.2.2.2 u T
  simpa using hbound

/-- Witness for C1 at a concrete input: two admissions for `"u1"` (times 0
and 5 refused — the second is refused, so only time 0 is admitted) under
window 10 and limit 1 put at most one admitted timestamp in the trailing
window ending at time 10. -/
theorem claim_C1_witness :
    ((0 : Time) < 10 ∧ (1 : ℤ) ≤ 1 ∧
      ClockOK 0 [Op.record "u1" 0 0, Op.record "u1" 5 5] = true) ∧
    ((countInWindow 10 10
        (admitted (init 10 1) [Op.record "u1" 0 0, Op.record "u1" 5 5]
          "u1") : ℕ) : ℤ) ≤ 1 := by
  refine ⟨⟨by decide, by decide, by decide⟩, ?_⟩
  exact claim_C1_sliding_window_bound 10 1 (by decide) (by decide) 0
    [Op.record "u1" 0 0, Op.record "u1" 5 5] (by decide) "u1" 10

theorem record_lookup (s : SlidingWindowRateLimiter) (v : Key)
    (t1 t2 : Time) (k : Key) :
    (record_message s v t1 t2).2.user_messages k =
      if (can_send_message s v t1).1 = true ∧ k = v then
        some (stored (cleanup_window s v t1) v ++ [t2])
      else (cleanup_window s v t1).user_messages k := by
  cases hb : (can_send_message s v t1).1 with
  | true =>
    rw [record_snd_true s v t1 t2 hb]
    by_cases hk : k = v
    · simp [dset, hk]
    · simp [dset, hk]
  | false =>
    rw [record_snd_false s v t1 t2 hb]
    simp

theorem record_window_size (s : SlidingWindowRateLimiter) (v : Key)
    (t1 t2 : Time) :
    (record_message s v t1 t2).2.window_size = s.window_size := by
  cases hb : (can_send_message s v t1).1 with
  | true =>
    rw [record_snd_true s v t1 t2 hb]
    exact cleanup_window_size s v t1
  | false =>
    rw [record_snd_false s v t1 t2 hb]
    exact cleanup_window_size s v t1

theorem record_max_requests (s : SlidingWindowRateLimiter) (v : Key)
    (t1 t2 : Time) :
    (record_message s v t1 t2).2.max_requests = s.max_requests := by
  cases hb : (can_send_message s v t1).1 with
  | true =>
    rw [record_snd_true s v t1 t2 hb]
    exact cleanup_max_requests s v t1
  | false =>
    rw [record_snd_false s v t1 t2 hb]
    exact cleanup_max_requests s v t1

theorem can_send_fst_congr (s₁ s₂ : SlidingWindowRateLimiter) (v : Key)
    (t : Time) (hW : s₁.window_size = s₂.window_size)
    (hM : s₁.max_requests = s₂.max_requests)
    (hv : s₁.user_messages v = s₂.user_messages v) :
    (can_send_message s₁ v t).1 = (can_send_message s₂ v t).1 := by
  have hl : (cleanup_window s₁ v t).user_messages v =
      (cleanup_window s₂ v t).user_messages v := by
    rw [cleanup_lookup, cleanup_lookup, if_pos rfl, if_pos rfl, hW, hv]
  rw [can_send_fst, can_send_fst, hl, hM]

theorem wait_fst_congr (s₁ s₂ : SlidingWindowRateLimiter) (v : Key)
    (t : Time) (hW : s₁.window_size = s₂.window_size)
    (hM : s₁.max_requests = s₂.max_requests)
    (hv : s₁.user_messages v = s₂.user_messages v) :
    (time_until_next_allowed s₁ v t).1 =
      (time_until_next_allowed s₂ v t).1 := by
  have hl : (cleanup_window s₁ v t).user_messages v =
      (cleanup_window s₂ v t).user_messages v := by
    rw [cleanup_lookup, cleanup_lookup, if_pos rfl, if_pos rfl, hW, hv]
  cases h : (cleanup_window s₂ v t).user_messages v with
  | none => rw [wait_fst_none s₁ v t (hl.trans h), wait_fst_none s₂ v t h]
  | some l =>
    by_cases hlt : (l.length : ℤ) < s₂.max_requests
    · rw [wait_fst_lt s₁ v t l (hl.trans h) (by rw [hM]; exact hlt),
        wait_fst_lt s₂ v t l h hlt]
    · cases l with
      | nil => exact absurd h (cleanup_self_ne_some_nil s₂ v t)
      | cons oldest rest =>
        rw [wait_fst_ge s₁ v t oldest rest (hl.trans h)
            (by rw [hM]; exact hlt),
          wait_fst_ge s₂ v t oldest rest h hlt, hW]

theorem cleanup_absorb (s : SlidingWindowRateLimiter) (u : Key)
    (t t' : Time) (h : t ≤ t') :
    cleanup_window (cleanup_window s u t) u t' = cleanup_window s u t' := by
  refine SlidingWindowRateLimiter.ext ?_ ?_ ?_
  · rw [cleanup_window_size, cleanup_window_size, cleanup_window_size]
  · rw [cleanup_max_requests, cleanup_max_requests, cleanup_max_requests]
  · funext k
    simp only [cleanup_lookup, cleanup_window_size]
    by_cases hk : k = u
    · simp only [hk, if_pos rfl]
      exact evictOpt_evictOpt s.window_size t t' h (s.user_messages u)
    · simp [hk]

theorem cleanup_comm (s : SlidingWindowRateLimiter) (u v : Key)
    (t t' : Time) (huv : u ≠ v) :
    cleanup_window (cleanup_window s u t) v t' =
      cleanup_window (cleanup_window s v t') u t := by
  refine SlidingWindowRateLimiter.ext ?_ ?_ ?_
  · rw [cleanup_window_size, cleanup_window_size, cleanup_window_size,
      cleanup_window_size]
  · rw [cleanup_max_requests, cleanup_max_requests, cleanup_max_requests,
      cleanup_max_requests]
  · funext k
    simp only [cleanup_lookup, cleanup_window_size]
    have hvu : ¬ v = u := fun hh => huv hh.symm
    by_cases hkv : k = v <;> by_cases hku : k = u
    · exact absurd (hku.symm.trans hkv) huv
    · simp [hkv, hku, hvu, huv]
    · simp [hkv, hku, hvu, huv]
    · simp [hkv, hku, hvu, huv]

theorem wait_fst_of_cleanup_eq (s₁ s₂ : SlidingWindowRateLimiter) (v : Key)
    (t : Time) (hW : s₁.window_size = s₂.window_size)
    (hM : s₁.max_requests = s₂.max_requests)
    (hcl : cleanup_window s₁ v t = cleanup_window s₂ v t) :
    (time_until_next_allowed s₁ v t).1 =
      (time_until_next_allowed s₂ v t).1 := by
  cases h : (cleanup_window s₂ v t).user_messages v with
  | none =>
    rw [wait_fst_none s₁ v t (by rw [hcl]; exact h), wait_fst_none s₂ v t h]
  | some l =>
    by_cases hlt : (l.length : ℤ) < s₂.max_requests
    · rw [wait_fst_lt s₁ v t l (by rw [hcl]; exact h)
        (by rw [hM]; exact hlt), wait_fst_lt s₂ v t l h hlt]
    · cases l with
      | nil => exact absurd h (cleanup_self_ne_some_nil s₂ v t)
      | cons oldest rest =>
        rw [wait_fst_ge s₁ v t oldest rest (by rw [hcl]; exact h)
            (by rw [hM]; exact hlt),
          wait_fst_ge s₂ v t oldest rest h hlt, hW]

theorem op_on_cleaned_state (s : SlidingWindowRateLimiter) (u : Key)
    (t : Time) (o : Op) (hko : Op.key o = u) (h1 : t ≤ opStart o) :
    opOut (cleanup_window s u t) o = opOut s o ∧
    applyOp (cleanup_window s u t) o = applyOp s o := by
  cases o with
  | canSend v t' =>
    simp only [Op.key] at hko
    subst hko
    simp only [opStart] at h1
    have habs := cleanup_absorb s v t t' h1
    constructor
    · simp only [opOut]
      congr 1
      rw [can_send_fst, can_send_fst, habs, cleanup_max_requests]
    · simp only [applyOp]
      rw [can_send_snd, can_send_snd, habs]
  | wait v t' =>
    simp only [Op.key] at hko
    subst hko
    simp only [opStart] at h1
    have habs := cleanup_absorb s v t t' h1
    constructor
    · simp only [opOut]
      congr 1
      exact wait_fst_of_cleanup_eq (cleanup_window s v t) s v t'
        (cleanup_window_size s v t) (cleanup_max_requests s v t) habs
    · simp only [applyOp]
      rw [wait_snd, wait_snd, habs]
  | record v t1 t2 =>
    simp only [Op.key] at hko
    subst hko
    simp only [opStart] at h1
    have habs := cleanup_absorb s v t t1 h1
    have hfst : (can_send_message (cleanup_window s v t) v t1).1 =
        (can_send_message s v t1).1 := by
      rw [can_send_fst, can_send_fst, habs, cleanup_max_requests]
    constructor
    · simp only [opOut]
      congr 1
      rw [record_fst, record_fst, hfst]
    · simp only [applyOp]
      cases hb : (can_send_message s v t1).1 with
      | true =>
        rw [record_snd_true _ _ _ _ (hfst.trans hb),
          record_snd_true _ _ _ _ hb, habs]
      | false =>
        rw [record_snd_false _ _ _ _ (hfst.trans hb),
          record_snd_false _ _ _ _ hb, habs]

theorem op_comm_cleanup (s : SlidingWindowRateLimiter) (u : Key)
    (t : Time) (o : Op) (hko : Op.key o ≠ u) :
    opOut (cleanup_window s u t) o = opOut s o ∧
    applyOp (cleanup_window s u t) o = cleanup_window (applyOp s o) u t := by
  cases o with
  | canSend v t' =>
    simp only [Op.key] at hko
    constructor
    · simp only [opOut]
      congr 1
      exact can_send_fst_congr (cleanup_window s u t) s v t'
        (cleanup_window_size s u t) (cleanup_max_requests s u t)
        (by rw [cleanup_lookup, if_neg hko])
    · simp only [applyOp]
      rw [can_send_snd, can_send_snd]
      exact cleanup_comm s u v t t' (fun h => hko h.symm)
  | wait v t' =>
    simp only [Op.key] at hko
    constructor
    · simp only [opOut]
      congr 1
      exact wait_fst_congr (cleanup_window s u t) s v t'
        (cleanup_window_size s u t) (cleanup_max_requests s u t)
        (by rw [cleanup_lookup, if_neg hko])
    · simp only [applyOp]
      rw [wait_snd, wait_snd]
      exact cleanup_comm s u v t t' (fun h => hko h.symm)
  | record v t1 t2 =>
    simp only [Op.key] at hko
    have hvu : ¬ v = u := fun h => hko h
    have huv : ¬ u = v := fun h => hko h.symm
    have hfst : (can_send_message (cleanup_window s u t) v t1).1 =
        (can_send_message s v t1).1 :=
      can_send_fst_congr (cleanup_window s u t) s v t1
        (cleanup_window_size s u t) (cleanup_max_requests s u t)
        (by rw [cleanup_lookup, if_neg hvu])
    constructor
    · simp only [opOut]
      congr 1
      rw [record_fst, record_fst, hfst]
    · simp only [applyOp]
      have hsv : stored (cleanup_window (cleanup_window s u t) v t1) v =
          stored (cleanup_window s v t1) v := by
        simp [stored, cleanup_lookup, cleanup_window_size, hvu]
      refine SlidingWindowRateLimiter.ext ?_ ?_ ?_
      · rw [record_window_size, cleanup_window_size, cleanup_window_size,
          record_window_size]
      · rw [record_max_requests, cleanup_max_requests, cleanup_max_requests,
          record_max_requests]
      · funext k
        simp only [record_lookup, cleanup_lookup, record_window_size,
          cleanup_window_size]
        rw [hfst, hsv]
        by_cases hkv : k = v
        · have hku : ¬ k = u := fun hh => huv (hh.symm.trans hkv)
          by_cases hc : (can_send_message s v t1).1 = true
          · simp [hc, hkv, hku, hvu, huv]
          · simp [hc, hkv, hku, hvu, huv]
        · by_cases hku : k = u
          · by_cases hc : (can_send_message s v t1).1 = true
            · simp [hc, hkv, hku, hvu, huv]
            · simp [hc, hkv, hku, hvu, huv]
          · by_cases hc : (can_send_message s v t1).1 = true
            · simp [hc, hkv, hku, hvu, huv]
            · simp [hc, hkv, hku, hvu, huv]

theorem ClockOK_mono (τ τ' : Time) (h : τ ≤ τ') :
    ∀ ops, ClockOK τ' ops = true → ClockOK τ ops = true := by
  intro ops hck
  cases ops with
  | nil => rfl
  | cons o os =>
    simp only [ClockOK, Bool.and_eq_true, decide_eq_true_eq] at hck ⊢
    obtain ⟨⟨h1, h2⟩, hck'⟩ := hck
    exact ⟨⟨le_trans h h1, h2⟩, hck'⟩

theorem ClockOK_append_right :
    ∀ (l1 : List Op) (τ : Time) (l2 : List Op),
      ClockOK τ (l1 ++ l2) = true → ClockOK τ l2 = true := by
  intro l1
  induction l1 with
  | nil => exact fun τ l2 h => h
  | cons o os ih =>
    intro τ l2 h
    simp only [List.cons_append, ClockOK, Bool.and_eq_true,
      decide_eq_true_eq] at h
    obtain ⟨⟨h1, h2⟩, h'⟩ := h
    exact ClockOK_mono τ (opEnd o) (le_trans h1 h2) l2 (ih (opEnd o) l2 h')

theorem cleanup_outputs_run (u : Key) :
    ∀ (ops : List Op) (t : Time) (s : SlidingWindowRateLimiter),
      ClockOK t ops = true →
      outputs (cleanup_window s u t) ops = outputs s ops ∧
      (run (cleanup_window s u t) ops = run s ops ∨
        run (cleanup_window s u t) ops =
          cleanup_window (run s ops) u t) := by
  intro ops
  induction ops with
  | nil => exact fun t s _ => ⟨rfl, Or.inr rfl⟩
  | cons o os ih =>
    intro t s hck
    simp only [ClockOK, Bool.and_eq_true, decide_eq_true_eq] at hck
    obtain ⟨⟨h1, h2⟩, hck'⟩ := hck
    by_cases hko : Op.key o = u
    · obtain ⟨hout, hstate⟩ := op_on_cleaned_state s u t o hko h1
      refine ⟨?_, Or.inl ?_⟩
      · simp only [outputs]
        rw [hout, hstate]
      · simp only [run]
        rw [hstate]
    · obtain ⟨hout, hstate⟩ := op_comm_cleanup s u t o hko
      have hckt : ClockOK t os = true :=
        ClockOK_mono t (opEnd o) (le_trans h1 h2) os hck'
      obtain ⟨hrecout, hrecrun⟩ := ih t (applyOp s o) hckt
      refine ⟨?_, ?_⟩
      · simp only [outputs]
        rw [hout, hstate, hrecout]
      · simp only [run]
        rw [hstate]
        exact hrecrun

/-- C8: `can_send_message` is an observationally idempotent read.  Running
any number of `can_send_message` calls for a key (at non-decreasing times)
before a sequence of further operations does not change the result of any
of those subsequent `can_send_message`, `record_message` or
`time_until_next_allowed` calls: the extra reads only evict expired
entries, which can never affect a later decision. -/
theorem claim_C8_idempotent_read (u : Key) :
    ∀ (ts : List Time) (s : SlidingWindowRateLimiter) (t : Time)
      (ops : List Op),
      ClockOK t (ts.map (Op.canSend u) ++ ops) = true →
      outputs (run s (ts.map (Op.canSend u))) ops = outputs s ops := by
  intro ts
  induction ts with
  | nil => intro s t ops _; rfl
  | cons t' ts' ih =>
    intro s t ops hck
    simp only [List.map_cons, List.cons_append, ClockOK, Bool.and_eq_true,
      decide_eq_true_eq, opStart, opEnd] at hck
    obtain ⟨⟨h1, h2⟩, hck'⟩ := hck
    have hA : applyOp s (Op.canSend u t') = cleanup_window s u t' := by
      simp only [applyOp]
      rw [can_send_snd]
    show outputs (run (applyOp s (Op.canSend u t'))
      (List.map (Op.canSend u) ts')) ops = outputs s ops
    rw [hA, ih (cleanup_window s u t') t' ops hck']
    exact (cleanup_outputs_run u ops t' s
      (ClockOK_append_right (List.map (Op.canSend u) ts') t' ops hck')).1

/-- Witness for C8 at a concrete input: two extra `can_send_message` reads
at times 3 and 5 do not change the results of a later `record_message` at
time 7 and `time_until_next_allowed` at time 8. -/
theorem claim_C8_witness :
    ClockOK 0 (([3, 5] : List Time).map (Op.canSend "u1") ++
      [Op.record "u1" 7 7, Op.wait "u1" 8]) = true ∧
    outputs (run (record_message (init (10 : Time) 1) "u1" 0 0).2
        (([3, 5] : List Time).map (Op.canSend "u1")))
        [Op.record "u1" 7 7, Op.wait "u1" 8] =
      outputs (record_message (init (10 : Time) 1) "u1" 0 0).2
        [Op.record "u1" 7 7, Op.wait "u1" 8] := by
  exact ⟨by decide, claim_C8_idempotent_read "u1" [3, 5]
    (record_message (init (10 : Time) 1) "u1" 0 0).2 0
    [Op.record "u1" 7 7, Op.wait "u1" 8] (by decide)⟩

end RateLimiter
